import Mathlib

/-!
Verification of the resilience orchestration layer of GPT-OS
(`gpt_shell_enterprise.py`): circuit breaker, LRU+TTL cache, token-bucket
rate limiter, retry wrapper, fallback chain, priority task queue, and the
`translate_command` pipeline that composes them.

Modelling conventions:
* Wall-clock instants (`datetime.now()`, `time.time()`) are rationals (ℚ),
  passed explicitly as a `now` argument to each operation that reads the
  clock; Python's float arithmetic is modelled exactly.
* Mutable objects become explicit state values: each method returns its
  result together with the updated state.
* `Metrics` counters/gauges are total functions from metric names.
* Remote-provider behaviour (`_call_llm`) is an oracle: every invocation
  is assigned an outcome — either it raises, or it returns the parsed
  response (`none` when JSON parsing yields no result).
* Python exceptions escaping a function are modelled by `PyResult.exn`.
-/

namespace GPTOS

/-- Outcome of one `_call_llm` invocation, as seen by its caller:
`raises` models any exception (network error, timeout, JSON decode error
raised outside the guarded region, ...); `ok r` models a normal return,
where `r = none` is the "no result" of a failed JSON parse and
`ok (some v)` a successfully parsed (truthy) response object. -/
inductive CallOutcome (α : Type) where
  | raises : CallOutcome α
  | ok : Option α → CallOutcome α
deriving DecidableEq, Repr

/-- Normal return vs. an exception propagating out of a Python function. -/
inductive PyResult (α : Type) where
  | ok : α → PyResult α
  | exn : PyResult α
deriving DecidableEq, Repr

/-- The JSON object produced by `_parse_llm_response`:
`{command, explanation, warning, safe}`. -/
structure TransResult where
  command : String
  explanation : String
  warning : Option String
  safe : Bool
deriving DecidableEq, Repr

/-- The relevant fields of `Config` (`gpt_shell_enterprise.py`, class
`Config`).  `llm_model` is *not* here: the Python code mutates
`config.llm_model` in `_fallback_translation`, so it lives in the mutable
system state. -/
structure Config where
  fallback_models : List String
  circuit_breaker_enabled : Bool
  circuit_breaker_failure_threshold : Nat
  circuit_breaker_recovery_timeout : ℚ
  circuit_breaker_success_threshold : Nat
  retry_max_attempts : Nat
  cache_enabled : Bool
  cache_max_size : Nat
  cache_ttl : ℚ
  rate_limit_enabled : Bool
  rate_limit_requests_per_minute : ℚ
  rate_limit_burst_size : ℚ
deriving Repr

/-- In-memory metrics store (class `Metrics`): named counters, gauges and
histograms.  `increment` at the call sites of interest always uses the
default step `1`. -/
structure Metrics where
  counters : String → Nat
  gauges : String → ℚ
  histograms : String → List ℚ

def MAX_HISTOGRAM_SIZE : Nat := 1000

def Metrics.increment (m : Metrics) (name : String) : Metrics :=
  { m with counters := fun n => if n = name then m.counters n + 1 else m.counters n }

def Metrics.set_gauge (m : Metrics) (name : String) (v : ℚ) : Metrics :=
  { m with gauges := fun n => if n = name then v else m.gauges n }

/-- `Metrics.observe`: append the observation, keeping only the last
`MAX_HISTOGRAM_SIZE` entries. -/
def Metrics.observe (m : Metrics) (name : String) (v : ℚ) : Metrics :=
  { m with histograms := fun n =>
      if n = name then
        let l := m.histograms n ++ [v]
        if MAX_HISTOGRAM_SIZE < l.length then l.drop (l.length - MAX_HISTOGRAM_SIZE) else l
      else m.histograms n }

def emptyMetrics : Metrics := ⟨fun _ => 0, fun _ => 0, fun _ => []⟩

/-! ### Circuit breaker (class `CircuitBreaker`) -/

inductive CircuitState where
  | CLOSED
  | OPEN
  | HALF_OPEN
deriving DecidableEq, Repr

/-- Mutable fields of `CircuitBreaker` (the logger is ignored; metric
gauge writes of the transitions are tracked in `Metrics` by the
transition helpers below). -/
structure CircuitBreaker where
  state : CircuitState
  failure_count : Nat
  success_count : Nat
  last_failure_time : Option ℚ
  last_state_change : ℚ
deriving DecidableEq, Repr

/-- `CircuitBreaker._transition_to_open`: sets state and the state-change
timestamp only — the failure/success counters are left untouched. -/
def CircuitBreaker.transition_to_open (now : ℚ) (cb : CircuitBreaker) : CircuitBreaker :=
  { cb with state := .OPEN, last_state_change := now }

/-- `CircuitBreaker._transition_to_half_open`: resets `success_count`. -/
def CircuitBreaker.transition_to_half_open (now : ℚ) (cb : CircuitBreaker) : CircuitBreaker :=
  { cb with state := .HALF_OPEN, success_count := 0, last_state_change := now }

/-- `CircuitBreaker._transition_to_closed`: resets both counters. -/
def CircuitBreaker.transition_to_closed (now : ℚ) (cb : CircuitBreaker) : CircuitBreaker :=
  { cb with state := .CLOSED, failure_count := 0, success_count := 0,
            last_state_change := now }

/-- `CircuitBreaker.should_allow_request`; returns the decision and the
(possibly lazily transitioned) breaker. -/
def CircuitBreaker.should_allow_request (cfg : Config) (now : ℚ) (cb : CircuitBreaker) :
    Bool × CircuitBreaker :=
  if !cfg.circuit_breaker_enabled then (true, cb)
  else match cb.state with
  | .CLOSED => (true, cb)
  | .OPEN =>
    match cb.last_failure_time with
    | some t =>
        if cfg.circuit_breaker_recovery_timeout ≤ now - t then
          (true, cb.transition_to_half_open now)
        else (false, cb)
    | none => (false, cb)
  | .HALF_OPEN => (true, cb)

/-- `CircuitBreaker.record_success`. -/
def CircuitBreaker.record_success (cfg : Config) (now : ℚ) (cb : CircuitBreaker) :
    CircuitBreaker :=
  match cb.state with
  | .HALF_OPEN =>
      let cb := { cb with success_count := cb.success_count + 1 }
      if cfg.circuit_breaker_success_threshold ≤ cb.success_count then
        cb.transition_to_closed now
      else cb
  | .CLOSED => { cb with failure_count := 0 }
  | .OPEN => cb

/-- `CircuitBreaker.record_failure`: stamps `last_failure_time` first,
then dispatches on the state. -/
def CircuitBreaker.record_failure (cfg : Config) (now : ℚ) (cb : CircuitBreaker) :
    CircuitBreaker :=
  let cb := { cb with last_failure_time := some now }
  match cb.state with
  | .HALF_OPEN => cb.transition_to_open now
  | .CLOSED =>
      let cb := { cb with failure_count := cb.failure_count + 1 }
      if cfg.circuit_breaker_failure_threshold ≤ cb.failure_count then
        cb.transition_to_open now
      else cb
  | .OPEN => cb

/-! ### LRU + TTL cache (classes `CacheEntry`, `LRUCache`)

Python's `OrderedDict` is modelled as an association list in recency
order: head = least recently used, last = most recently used.  Keys are
unique in every state the code constructs; theorems that need uniqueness
take it as a hypothesis. -/

structure CacheEntry (α : Type) where
  value : α
  timestamp : ℚ
  ttl : ℚ
deriving DecidableEq, Repr

/-- `CacheEntry.is_expired`. -/
def CacheEntry.is_expired (now : ℚ) (e : CacheEntry α) : Bool :=
  e.ttl ≤ now - e.timestamp

/-- `OrderedDict.__getitem__` / `in`: first binding of the key. -/
def odLookup : List (String × β) → String → Option β
  | [], _ => none
  | (k', v) :: rest, k => if k' = k then some v else odLookup rest k

/-- `del d[k]`: removes the (first) binding of `k`, keeping the order of
the rest. -/
def odErase : List (String × β) → String → List (String × β)
  | [], _ => []
  | (k', v) :: rest, k => if k' = k then rest else (k', v) :: odErase rest k

/-- `d[k] = v`: overwrite in place if the key exists (an `OrderedDict`
assignment does not move the key), otherwise append at the
most-recently-used end. -/
def odAssign : List (String × β) → String → β → List (String × β)
  | [], k, v => [(k, v)]
  | (k', v') :: rest, k, v =>
      if k' = k then (k, v) :: rest else (k', v') :: odAssign rest k v

/-- `d.move_to_end(k)` (only called when `k` is present). -/
def odMoveToEnd (l : List (String × β)) (k : String) : List (String × β) :=
  match odLookup l k with
  | none => l
  | some v => odErase l k ++ [(k, v)]

structure LRUCache (α : Type) where
  cache : List (String × CacheEntry α)
deriving DecidableEq, Repr

/-- `LRUCache.get`: returns the value (or `none`), plus the updated cache
and metrics. -/
def LRUCache.get (cfg : Config) (now : ℚ) (c : LRUCache α) (m : Metrics) (key : String) :
    Option α × LRUCache α × Metrics :=
  if !cfg.cache_enabled then (none, c, m)
  else match odLookup c.cache key with
  | none => (none, c, m.increment "cache_miss")
  | some e =>
      if e.is_expired now then
        (none, ⟨odErase c.cache key⟩, m.increment "cache_expired")
      else
        (some e.value, ⟨odMoveToEnd c.cache key⟩, m.increment "cache_hit")

/-- `LRUCache.set`: capacity check (and eviction of the head = LRU entry,
`popitem(last=False)`) happens *before* the insertion, even when the key
is already present. -/
def LRUCache.set (cfg : Config) (now : ℚ) (c : LRUCache α) (m : Metrics)
    (key : String) (value : α) (ttl : Option ℚ) : LRUCache α × Metrics :=
  if !cfg.cache_enabled then (c, m)
  else
    let t := ttl.getD cfg.cache_ttl
    let (l, m) :=
      if cfg.cache_max_size ≤ c.cache.length then
        (c.cache.drop 1, m.increment "cache_eviction")
      else (c.cache, m)
    let l2 := odAssign l key ⟨value, now, t⟩
    (⟨l2⟩, m.set_gauge "cache_size" l2.length)

/-! ### Token-bucket rate limiter (class `TokenBucket`) -/

structure TokenBucket where
  tokens : ℚ
  last_update : ℚ
  rate : ℚ
deriving DecidableEq, Repr

/-- `TokenBucket.__init__`. -/
def TokenBucket.init (cfg : Config) (now : ℚ) : TokenBucket :=
  ⟨cfg.rate_limit_burst_size, now, cfg.rate_limit_requests_per_minute / 60⟩

/-- `TokenBucket.allow_request`. -/
def TokenBucket.allow_request (cfg : Config) (now : ℚ) (tb : TokenBucket) :
    Bool × TokenBucket :=
  if !cfg.rate_limit_enabled then (true, tb)
  else
    let elapsed := now - tb.last_update
    let tokens := min cfg.rate_limit_burst_size (tb.tokens + elapsed * tb.rate)
    if 1 ≤ tokens then (true, ⟨tokens - 1, now, tb.rate⟩)
    else (false, ⟨tokens, now, tb.rate⟩)

/-- Run `allow_request` at each instant of the list in order, collecting
the decisions. -/
def TokenBucket.run (cfg : Config) (tb : TokenBucket) : List ℚ → List Bool × TokenBucket
  | [] => ([], tb)
  | now :: rest =>
      let (b, tb') := tb.allow_request cfg now
      let (bs, tb'') := tb'.run cfg rest
      (b :: bs, tb'')

/-! ### Retry wrapper (`LLMService._call_llm_with_retry_wrapper`)

The oracle `oc i` is the outcome of the `_call_llm` invocation of attempt
`i`.  The wrapper returns immediately on *any* normal return of
`_call_llm` — including the `none` of a failed JSON parse — and retries
(after a backoff sleep, irrelevant here) only when the attempt raises;
when all `max_attempts` attempts raise, the stored exception is re-raised
(with `max_attempts = 0` the loop never runs and `raise None` raises a
`TypeError`, still an exception).  The second component counts the
`_call_llm` invocations actually made. -/

def retryFrom (oc : Nat → CallOutcome α) : Nat → Nat → PyResult (Option α) × Nat
  | a, 0 => (.exn, a)
  | a, r + 1 =>
      match oc a with
      | .ok res => (.ok res, a + 1)
      | .raises => retryFrom oc (a + 1) r

def call_llm_with_retry_wrapper (oc : Nat → CallOutcome α) (max_attempts : Nat) :
    PyResult (Option α) × Nat :=
  retryFrom oc 0 max_attempts

/-! ### Fallback chain (`LLMService._fallback_translation`) -/

/-- The synthesized degraded result returned when every fallback model
has been exhausted. -/
def degraded_result : TransResult :=
  { command := ""
    explanation := "Service temporarily unavailable. Please try again."
    warning := some "All LLM services are currently unavailable."
    safe := false }

/-- The `for fallback_model in self.config.fallback_models` loop.
`cur` is the current `config.llm_model`; each iteration saves it,
overwrites it with the fallback model's name and calls `_call_llm`
(outcome `oc i` for the i-th fallback position); the saved name is
written back only on the non-raising path — an exception is caught by the
per-model `except` and leaves `config.llm_model` at the fallback name.
Returns the result together with the final `config.llm_model`. -/
def fallback_loop (oc : Nat → CallOutcome TransResult) :
    List String → Nat → String → TransResult × String
  | [], _, cur => (degraded_result, cur)
  | fm :: rest, i, cur =>
      match oc i with
      | .raises => fallback_loop oc rest (i + 1) fm
      | .ok none => fallback_loop oc rest (i + 1) cur
      | .ok (some v) => (v, cur)

/-- `LLMService._fallback_translation` (metrics portion plus the loop). -/
def fallback_translation (cfg : Config) (oc : Nat → CallOutcome TransResult)
    (cur : String) (m : Metrics) : TransResult × String × Metrics :=
  let m := m.increment "fallback_used"
  let (r, model) := fallback_loop oc cfg.fallback_models 0 cur
  (r, model, m)

/-! ### The pipeline (`LLMService.translate_command`) -/

/-- Mutable state shared by the pipeline components.  `llm_model` is the
mutable `config.llm_model` field. -/
structure SysState where
  llm_model : String
  cache : LRUCache TransResult
  cb : CircuitBreaker
  tb : TokenBucket
  metrics : Metrics

/-- `LLMService.translate_command`.

* `cache_key` stands for the `md5(user_input : context)` fingerprint
  (`_generate_cache_key`); its computation is an opaque injective hash
  and is irrelevant to the pipeline's control flow.
* `primary i` is the outcome of attempt `i` of the primary retried call,
  `fb i` the outcome of the call made for the i-th fallback model.
* A single `now` serves the whole invocation, so the observed latency is
  `(now - now) * 1000 = 0`; no claim depends on histogram contents.
* Cached values and parsed results are records, hence truthy — the only
  falsy value at `if cached_result:` / `if result:` is the absent one,
  which `Option` captures. -/
def translate_command (cfg : Config) (now : ℚ) (st : SysState) (cache_key : String)
    (primary : Nat → CallOutcome TransResult) (fb : Nat → CallOutcome TransResult) :
    PyResult (Option TransResult) × SysState :=
  -- Check rate limit
  let (allowed, tb') := st.tb.allow_request cfg now
  let st := { st with tb := tb' }
  if !allowed then (.ok none, st)
  else
    -- Check cache
    let (cached, cache', m') := st.cache.get cfg now st.metrics cache_key
    let st := { st with cache := cache', metrics := m' }
    match cached with
    | some v =>
        (.ok (some v), { st with metrics := st.metrics.observe "translation_latency_ms" 0 })
    | none =>
        -- Check circuit breaker
        let (allow, cb') := st.cb.should_allow_request cfg now
        let st := { st with cb := cb' }
        if !allow then
          let (r, model, m2) := fallback_translation cfg fb st.llm_model st.metrics
          (.ok (some r), { st with llm_model := model, metrics := m2 })
        else
          -- Call LLM with retry
          match (call_llm_with_retry_wrapper primary cfg.retry_max_attempts).1 with
          | .ok (some v) =>
              let (cache2, m2) := st.cache.set cfg now st.metrics cache_key v none
              let cb2 := st.cb.record_success cfg now
              let m2 := (m2.observe "translation_latency_ms" 0).increment "translations_total"
              (.ok (some v), { st with cache := cache2, cb := cb2, metrics := m2 })
          | .ok none =>
              let cb2 := st.cb.record_failure cfg now
              let m2 := (st.metrics.observe "translation_latency_ms" 0).increment "translations_total"
              (.ok none, { st with cb := cb2, metrics := m2 })
          | .exn =>
              -- except clause: record failure, then fall back
              let cb2 := st.cb.record_failure cfg now
              let m2 := st.metrics.increment "translation_errors"
              let (r, model, m3) := fallback_translation cfg fb st.llm_model m2
              (.ok (some r), { st with cb := cb2, llm_model := model, metrics := m3 })

/-! ### Task queue (`Task`, `TaskQueue`)

`TaskQueue.enqueue` does `queue.put((priority, task))` on an
`asyncio.PriorityQueue`, which stores its entries in a list managed by
CPython's `heapq.heappush` / `heapq.heappop`.  A worker's `queue.get()`
pops one entry.

Comparison of the `(priority, task)` tuples: the priorities are compared
first; on a tie, the `Task` values are compared — dataclass-generated
`__eq__` makes two distinct tasks unequal, and `Task.__lt__` compares
`self.priority < other.priority`, which is false on a tie.  Hence the
tuple order is exactly `priority <` and equal-priority entries are
mutually "not less".

An entry is modelled by its priority and an identifier (`id` = arrival
index); `funcs`/timestamps do not take part in the comparison. -/

structure Entry where
  priority : Int
  id : Nat
deriving DecidableEq, Repr

/-- The effective `<` of the heap entries (see above). -/
def entryLt (a b : Entry) : Bool := a.priority < b.priority

def dummyEntry : Entry := ⟨0, 0⟩

/-- `heap.getD i` — positional read, as CPython's `heap[i]`. -/
def hget (l : List Entry) (i : Nat) : Entry := l.getD i dummyEntry

/-- CPython `heapq._siftdown(heap, startpos, pos)`: bubble `newitem`
toward the root, shifting greater parents down, and write it at the final
position.  The extra `fuel` argument makes the strictly decreasing `pos`
a structural recursion; every entry point passes `fuel = pos`, which the
loop can never exhaust because each step at least halves `pos`. -/
def siftdownGo (newitem : Entry) : Nat → List Entry → Nat → Nat → List Entry
  | 0, l, _, pos => l.set pos newitem
  | fuel + 1, l, startpos, pos =>
      if startpos < pos then
        let parentpos := (pos - 1) / 2
        let parent := hget l parentpos
        if entryLt newitem parent then
          siftdownGo newitem fuel (l.set pos parent) startpos parentpos
        else l.set pos newitem
      else l.set pos newitem

def siftdown (l : List Entry) (startpos pos : Nat) : List Entry :=
  siftdownGo (hget l pos) pos l startpos pos

/-- `heapq.heappush`. -/
def heappush (l : List Entry) (item : Entry) : List Entry :=
  siftdown (l ++ [item]) 0 l.length

/-- The `while` loop of CPython `heapq._siftup`: walk the hole at `pos`
down to a leaf, always moving up the child that is not greater than its
sibling (on a tie the *right* child, because the test is
`not heap[childpos] < heap[rightpos]`).  Returns the final hole position.
`fuel = l.length` bounds the walk. -/
def siftupGo : Nat → List Entry → Nat → List Entry × Nat
  | 0, l, pos => (l, pos)
  | fuel + 1, l, pos =>
      if 2 * pos + 1 < l.length then
        let childpos :=
          if 2 * pos + 2 < l.length ∧
              (!entryLt (hget l (2 * pos + 1)) (hget l (2 * pos + 2))) = true then
            2 * pos + 2
          else 2 * pos + 1
        siftupGo fuel (l.set pos (hget l childpos)) childpos
      else (l, pos)

/-- CPython `heapq._siftup(heap, pos)`. -/
def siftup (l : List Entry) (pos : Nat) : List Entry :=
  let newitem := hget l pos
  let (l2, pos2) := siftupGo l.length l pos
  siftdownGo newitem pos2 l2 pos pos2

/-- `heapq.heappop`: `none` models the `IndexError` on an empty heap
(never reached by the worker, which awaits a non-empty queue). -/
def heappop (l : List Entry) : Option (Entry × List Entry) :=
  match l with
  | [] => none
  | [x] => some (x, [])
  | _ :: _ :: _ =>
      let lastelt := l.getLastD dummyEntry
      let rest := l.dropLast
      some (hget rest 0, siftup (rest.set 0 lastelt) 0)

/-- Push every entry of the list in order (`TaskQueue.enqueue` calls). -/
def pushAll (l : List Entry) : List Entry → List Entry
  | [] => l
  | e :: es => pushAll (heappush l e) es

/-- Dequeue everything (`fuel` = an upper bound on the heap size),
collecting the ids in dequeue order. -/
def drainIds : Nat → List Entry → List Nat
  | 0, _ => []
  | fuel + 1, l =>
      match heappop l with
      | none => []
      | some (e, l') => e.id :: drainIds fuel l'

/-! ## Claims -/

/-- **C2, counterexample.** The claim states that the `record_failure`
call on which `failure_count` reaches `failure_threshold` zeroes both
counters.  With `failure_threshold = 1` and a fresh CLOSED breaker, one
`record_failure` at time 0 transitions to OPEN but leaves
`failure_count = 1 ≠ 0`. -/
theorem claim_C2_counterexample :
    ((CircuitBreaker.mk .CLOSED 0 0 none 0).record_failure
        ⟨[], true, 1, 60, 2, 3, true, 10, 3600, true, 60, 10⟩ 0).state = .OPEN ∧
    ((CircuitBreaker.mk .CLOSED 0 0 none 0).record_failure
        ⟨[], true, 1, 60, 2, 3, true, 10, 3600, true, 60, 10⟩ 0).failure_count ≠ 0 := by
  constructor
  · rfl
  · decide

/-- **C2** (amended).  For a breaker in CLOSED state, `record_failure`
increments `failure_count` and stamps `last_failure_time`; the call on
which the count reaches `failure_threshold` transitions the state to
OPEN and updates the state-change timestamp, but `_transition_to_open`
does **not** zero the counters: `failure_count` remains at the threshold
value just reached and `success_count` is unchanged. -/
theorem claim_C2 (cfg : Config) (now : ℚ) (cb : CircuitBreaker)
    (hs : cb.state = .CLOSED) :
    (cb.record_failure cfg now).failure_count = cb.failure_count + 1 ∧
    (cb.record_failure cfg now).last_failure_time = some now ∧
    (cb.record_failure cfg now).success_count = cb.success_count ∧
    (cfg.circuit_breaker_failure_threshold ≤ cb.failure_count + 1 →
      (cb.record_failure cfg now).state = .OPEN ∧
      (cb.record_failure cfg now).last_state_change = now) ∧
    (cb.failure_count + 1 < cfg.circuit_breaker_failure_threshold →
      (cb.record_failure cfg now).state = .CLOSED ∧
      (cb.record_failure cfg now).last_state_change = cb.last_state_change) := by
  obtain ⟨s, fc, sc, lft, lsc⟩ := cb
  cases hs
  by_cases h : cfg.circuit_breaker_failure_threshold ≤ fc + 1 <;>
    simp [CircuitBreaker.record_failure, CircuitBreaker.transition_to_open, h]

/-- **C2, witness.**  Instantiation at threshold 3: the third failure
transitions to OPEN with `failure_count = 3`, `success_count` still 0. -/
theorem claim_C2_witness :
    ((CircuitBreaker.mk .CLOSED 2 0 (some 1) 0).record_failure
        ⟨[], true, 3, 60, 2, 3, true, 10, 3600, true, 60, 10⟩ 7).failure_count = 3 ∧
    ((CircuitBreaker.mk .CLOSED 2 0 (some 1) 0).record_failure
        ⟨[], true, 3, 60, 2, 3, true, 10, 3600, true, 60, 10⟩ 7).state = .OPEN := by
  have h := claim_C2 ⟨[], true, 3, 60, 2, 3, true, 10, 3600, true, 60, 10⟩ 7
    (CircuitBreaker.mk .CLOSED 2 0 (some 1) 0) rfl
  exact ⟨h.1, (h.2.2.2.1 (by decide)).1⟩

/-- **C4.**  For an enabled breaker in OPEN state with
`last_failure_time = some t`: while `now - t` is below
`recovery_timeout`, `should_allow_request` returns `false` and changes
nothing; once `now - t ≥ recovery_timeout`, the check itself transitions
the breaker to HALF_OPEN (resetting `success_count` and stamping the
state change) and returns `true` for that probe. -/
theorem claim_C4 (cfg : Config) (now t : ℚ) (cb : CircuitBreaker)
    (hen : cfg.circuit_breaker_enabled = true)
    (hs : cb.state = .OPEN) (hl : cb.last_failure_time = some t) :
    (now - t < cfg.circuit_breaker_recovery_timeout →
      cb.should_allow_request cfg now = (false, cb)) ∧
    (cfg.circuit_breaker_recovery_timeout ≤ now - t →
      (cb.should_allow_request cfg now).1 = true ∧
      (cb.should_allow_request cfg now).2.state = .HALF_OPEN ∧
      (cb.should_allow_request cfg now).2.success_count = 0 ∧
      (cb.should_allow_request cfg now).2.last_state_change = now ∧
      (cb.should_allow_request cfg now).2.failure_count = cb.failure_count ∧
      (cb.should_allow_request cfg now).2.last_failure_time = some t) := by
  obtain ⟨s, fc, sc, lft, lsc⟩ := cb
  cases hs
  cases hl
  constructor
  · intro h
    simp [CircuitBreaker.should_allow_request, hen, not_le.mpr h]
  · intro h
    simp [CircuitBreaker.should_allow_request, hen, h,
          CircuitBreaker.transition_to_half_open]

/-- **C4, witness.**  Timeout 60, failure at time 0: at `now = 100` the
probe is admitted and the breaker is HALF_OPEN; the same breaker checked
at `now = 30` is denied. -/
theorem claim_C4_witness :
    ((CircuitBreaker.mk .OPEN 5 1 (some 0) 0).should_allow_request
        ⟨[], true, 5, 60, 2, 3, true, 10, 3600, true, 60, 10⟩ 100).1 = true ∧
    ((CircuitBreaker.mk .OPEN 5 1 (some 0) 0).should_allow_request
        ⟨[], true, 5, 60, 2, 3, true, 10, 3600, true, 60, 10⟩ 100).2.state = .HALF_OPEN ∧
    ((CircuitBreaker.mk .OPEN 5 1 (some 0) 0).should_allow_request
        ⟨[], true, 5, 60, 2, 3, true, 10, 3600, true, 60, 10⟩ 30)
      = (false, CircuitBreaker.mk .OPEN 5 1 (some 0) 0) := by
  have h100 := claim_C4 ⟨[], true, 5, 60, 2, 3, true, 10, 3600, true, 60, 10⟩ 100 0
    (CircuitBreaker.mk .OPEN 5 1 (some 0) 0) rfl rfl rfl
  have h30 := claim_C4 ⟨[], true, 5, 60, 2, 3, true, 10, 3600, true, 60, 10⟩ 30 0
    (CircuitBreaker.mk .OPEN 5 1 (some 0) 0) rfl rfl rfl
  refine ⟨(h100.2 (by norm_num)).1, (h100.2 (by norm_num)).2.1, h30.1 (by norm_num)⟩

/-- **C6.**  Each enabled `allow_request` first refills
`tokens := min burst (tokens + elapsed * rate)` and sets
`last_update := now`; it grants (and subtracts exactly one token) iff the
refilled level is ≥ 1, otherwise it denies without subtracting.
Consequently with `burst_size = 3` and any positive rate, five calls at
one instant give exactly `3 × true` then `2 × false`, and `1/rate`
seconds later exactly one more call is granted. -/
theorem claim_C6 (cfg : Config) (hen : cfg.rate_limit_enabled = true) :
    (∀ (now : ℚ) (tb : TokenBucket),
      ((tb.allow_request cfg now).1 = true ↔
        1 ≤ min cfg.rate_limit_burst_size (tb.tokens + (now - tb.last_update) * tb.rate)) ∧
      (tb.allow_request cfg now).2.last_update = now ∧
      (tb.allow_request cfg now).2.rate = tb.rate ∧
      (tb.allow_request cfg now).2.tokens =
        (if 1 ≤ min cfg.rate_limit_burst_size (tb.tokens + (now - tb.last_update) * tb.rate)
         then min cfg.rate_limit_burst_size (tb.tokens + (now - tb.last_update) * tb.rate) - 1
         else min cfg.rate_limit_burst_size (tb.tokens + (now - tb.last_update) * tb.rate))) ∧
    (∀ (t₀ r : ℚ), 0 < r → cfg.rate_limit_burst_size = 3 →
      (TokenBucket.run cfg ⟨3, t₀, r⟩
          [t₀, t₀, t₀, t₀, t₀, t₀ + 1 / r, t₀ + 1 / r]).1
        = [true, true, true, false, false, true, false]) := by
  constructor
  · intro now tb
    by_cases h : 1 ≤ min cfg.rate_limit_burst_size (tb.tokens + (now - tb.last_update) * tb.rate) <;>
      simp [TokenBucket.allow_request, hen, h]
  · intro t₀ r hr hb
    have hrr : r⁻¹ * r = 1 := inv_mul_cancel₀ (ne_of_gt hr)
    norm_num [TokenBucket.run, TokenBucket.allow_request, hen, hb, hrr, one_div]

/-- **C6, witness.**  The scenario at `t₀ = 0`, `rate = 1`,
concrete configuration. -/
theorem claim_C6_witness :
    (TokenBucket.run ⟨[], true, 5, 60, 2, 3, true, 10, 3600, true, 180, 3⟩
        ⟨3, 0, 1⟩ [0, 0, 0, 0, 0, 0 + 1 / 1, 0 + 1 / 1]).1
      = [true, true, true, false, false, true, false] := by
  exact (claim_C6 ⟨[], true, 5, 60, 2, 3, true, 10, 3600, true, 180, 3⟩ rfl).2 0 1
    (by norm_num) rfl

/-! ### Association-list lemmas for the `OrderedDict` model -/

theorem odLookup_eq_none_iff (l : List (String × β)) (q : String) :
    odLookup l q = none ↔ q ∉ l.map Prod.fst := by
  induction l with
  | nil => simp [odLookup]
  | cons p rest ih =>
      obtain ⟨k', v⟩ := p
      by_cases h : k' = q
      · subst h; simp [odLookup]
      · rw [List.map_cons, List.mem_cons, not_or]
        simp only [odLookup, if_neg h, ih]
        exact ⟨fun hn => ⟨fun he => h he.symm, hn⟩, fun hn => hn.2⟩

theorem odLookup_odErase_ne (l : List (String × β)) (k q : String) (h : q ≠ k) :
    odLookup (odErase l k) q = odLookup l q := by
  have h' : ¬ k = q := fun hh => h hh.symm
  induction l with
  | nil => rfl
  | cons p rest ih =>
      obtain ⟨k', v⟩ := p
      by_cases hk : k' = k
      · subst hk
        simp [odErase, odLookup, h']
      · by_cases hq : k' = q
        · subst hq
          simp [odErase, odLookup, hk]
        · simp [odErase, odLookup, hk, hq, ih]

theorem odLookup_odErase_self (l : List (String × β)) (k : String)
    (hnd : (l.map Prod.fst).Nodup) :
    odLookup (odErase l k) k = none := by
  induction l with
  | nil => rfl
  | cons p rest ih =>
      obtain ⟨k', v⟩ := p
      simp only [List.map_cons, List.nodup_cons] at hnd
      by_cases hk : k' = k
      · subst hk
        simpa [odErase, odLookup_eq_none_iff] using hnd.1
      · simp [odErase, odLookup, hk, ih hnd.2]

theorem odLookup_append (l₁ l₂ : List (String × β)) (q : String) :
    odLookup (l₁ ++ l₂) q =
      match odLookup l₁ q with
      | some v => some v
      | none => odLookup l₂ q := by
  induction l₁ with
  | nil => simp [odLookup]
  | cons p rest ih =>
      obtain ⟨k', v⟩ := p
      by_cases h : k' = q <;> simp [odLookup, h, ih]

/-- **C7.**  For an enabled cache: `get` on an absent key is a miss that
changes nothing but the `cache_miss` counter; on a present but expired
entry (`now - created_at ≥ ttl`) it returns nothing, physically removes
the entry, and records `cache_expired` (the `cache_miss` counter is not
touched); on a present live entry it returns the stored value, records a
`cache_hit`, and promotes the key to the most-recently-used end, leaving
every other binding unchanged. -/
theorem claim_C7 {α : Type} (cfg : Config) (now : ℚ) (c : LRUCache α) (m : Metrics)
    (key : String) (hen : cfg.cache_enabled = true)
    (hnd : (c.cache.map Prod.fst).Nodup) :
    (odLookup c.cache key = none →
      (c.get cfg now m key).1 = none ∧
      (c.get cfg now m key).2.1 = c ∧
      (c.get cfg now m key).2.2.counters "cache_miss" = m.counters "cache_miss" + 1) ∧
    (∀ e : CacheEntry α, odLookup c.cache key = some e → e.is_expired now = true →
      (c.get cfg now m key).1 = none ∧
      odLookup (c.get cfg now m key).2.1.cache key = none ∧
      (∀ q, q ≠ key → odLookup (c.get cfg now m key).2.1.cache q = odLookup c.cache q) ∧
      (c.get cfg now m key).2.2.counters "cache_expired" = m.counters "cache_expired" + 1 ∧
      (c.get cfg now m key).2.2.counters "cache_miss" = m.counters "cache_miss") ∧
    (∀ e : CacheEntry α, odLookup c.cache key = some e → e.is_expired now = false →
      (c.get cfg now m key).1 = some e.value ∧
      odLookup (c.get cfg now m key).2.1.cache key = some e ∧
      (∀ q, q ≠ key → odLookup (c.get cfg now m key).2.1.cache q = odLookup c.cache q) ∧
      (c.get cfg now m key).2.1.cache.getLast? = some (key, e) ∧
      (c.get cfg now m key).2.2.counters "cache_hit" = m.counters "cache_hit" + 1) := by
  refine ⟨fun hmiss => ?_, fun e he hexp => ?_, fun e he hlive => ?_⟩
  · simp [LRUCache.get, hen, hmiss, Metrics.increment]
  · refine ⟨?_, ?_, fun q hq => ?_, ?_, ?_⟩
    · simp [LRUCache.get, hen, he, hexp]
    · simp [LRUCache.get, hen, he, hexp, odLookup_odErase_self _ _ hnd]
    · simp [LRUCache.get, hen, he, hexp, odLookup_odErase_ne _ _ _ hq]
    · simp [LRUCache.get, hen, he, hexp, Metrics.increment]
    · simp [LRUCache.get, hen, he, hexp, Metrics.increment]
  · have hmove : odMoveToEnd c.cache key = odErase c.cache key ++ [(key, e)] := by
      simp [odMoveToEnd, he]
    refine ⟨?_, ?_, fun q hq => ?_, ?_, ?_⟩
    · simp [LRUCache.get, hen, he, hlive]
    · simp [LRUCache.get, hen, he, hlive, hmove, odLookup_append,
            odLookup_odErase_self _ _ hnd, odLookup]
    · have hkq : ¬ key = q := fun hh => hq hh.symm
      simp only [LRUCache.get, hen, he, hlive, hmove, Bool.not_true, Bool.false_eq_true,
        if_false]
      rw [odLookup_append, odLookup_odErase_ne _ _ _ hq]
      cases hl : odLookup c.cache q <;> simp [odLookup, hkq, hl]
    · simp [LRUCache.get, hen, he, hlive, hmove]
    · simp [LRUCache.get, hen, he, hlive, Metrics.increment]

/-- **C7, witness.**  A two-entry cache at time 10: key `"a"` (created
at 0, ttl 5) is expired and gets removed; key `"b"` (created at 8,
ttl 5) is a live hit and is promoted to the MRU end. -/
theorem claim_C7_witness :
    ((LRUCache.mk [("a", ⟨"va", 0, 5⟩), ("b", ⟨"vb", 8, 5⟩)]).get
        ⟨[], true, 5, 60, 2, 3, true, 10, 3600, true, 60, 10⟩ 10 emptyMetrics "a").1
      = (none : Option String) ∧
    odLookup ((LRUCache.mk [("a", ⟨"va", 0, 5⟩), ("b", ⟨"vb", 8, 5⟩)]).get
        ⟨[], true, 5, 60, 2, 3, true, 10, 3600, true, 60, 10⟩ 10 emptyMetrics "a").2.1.cache "a"
      = none ∧
    ((LRUCache.mk [("a", ⟨"va", 0, 5⟩), ("b", ⟨"vb", 8, 5⟩)]).get
        ⟨[], true, 5, 60, 2, 3, true, 10, 3600, true, 60, 10⟩ 10 emptyMetrics "b").1
      = some "vb" ∧
    ((LRUCache.mk [("a", ⟨"va", 0, 5⟩), ("b", ⟨"vb", 8, 5⟩)]).get
        ⟨[], true, 5, 60, 2, 3, true, 10, 3600, true, 60, 10⟩ 10 emptyMetrics "b").2.1.cache.getLast?
      = some ("b", ⟨"vb", 8, 5⟩) := by
  have ha := claim_C7 ⟨[], true, 5, 60, 2, 3, true, 10, 3600, true, 60, 10⟩ 10
    (LRUCache.mk [("a", ⟨"va", 0, 5⟩), ("b", ⟨"vb", 8, 5⟩)]) emptyMetrics "a" rfl (by decide)
  have hb := claim_C7 ⟨[], true, 5, 60, 2, 3, true, 10, 3600, true, 60, 10⟩ 10
    (LRUCache.mk [("a", ⟨"va", 0, 5⟩), ("b", ⟨"vb", 8, 5⟩)]) emptyMetrics "b" rfl (by decide)
  have hae := ha.2.1 ⟨"va", 0, 5⟩ rfl (by norm_num [CacheEntry.is_expired])
  have hbl := hb.2.2 ⟨"vb", 8, 5⟩ rfl (by norm_num [CacheEntry.is_expired])
  exact ⟨hae.1, hae.2.1, hbl.1, hbl.2.2.2.1⟩

theorem odAssign_not_mem (l : List (String × β)) (k : String) (v : β)
    (h : k ∉ l.map Prod.fst) : odAssign l k v = l ++ [(k, v)] := by
  induction l with
  | nil => rfl
  | cons p rest ih =>
      obtain ⟨k', v'⟩ := p
      simp only [List.map_cons, List.mem_cons, not_or] at h
      have hne : ¬ k' = k := fun hh => h.1 hh.symm
      simp [odAssign, hne, ih h.2]

theorem odLookup_odAssign_self (l : List (String × β)) (k : String) (v : β) :
    odLookup (odAssign l k v) k = some v := by
  induction l with
  | nil => simp [odAssign, odLookup]
  | cons p rest ih =>
      obtain ⟨k', v'⟩ := p
      by_cases h : k' = k <;> simp [odAssign, odLookup, h, ih]

theorem odLookup_odAssign_ne (l : List (String × β)) (k : String) (v : β) (q : String)
    (h : q ≠ k) : odLookup (odAssign l k v) q = odLookup l q := by
  have h' : ¬ k = q := fun hh => h hh.symm
  induction l with
  | nil => simp [odAssign, odLookup, h']
  | cons p rest ih =>
      obtain ⟨k', v'⟩ := p
      by_cases hk : k' = k
      · subst hk
        simp [odAssign, odLookup, h']
      · by_cases hq : k' = q
        · subst hq
          simp [odAssign, if_neg hk, odLookup]
        · simp [odAssign, odLookup, hk, hq, ih]

theorem length_odAssign (l : List (String × β)) (k : String) (v : β) :
    (odAssign l k v).length =
      if k ∈ l.map Prod.fst then l.length else l.length + 1 := by
  induction l with
  | nil => simp [odAssign]
  | cons p rest ih =>
      obtain ⟨k', v'⟩ := p
      by_cases h : k' = k
      · subst h; simp [odAssign]
      · simp only [odAssign, if_neg h, List.length_cons, ih, List.map_cons, List.mem_cons]
        have hne : ¬ k = k' := fun hh => h hh.symm
        by_cases hm : k ∈ rest.map Prod.fst <;> simp [hm, hne]

/-- The cache state after inserting the keys `ks` (value `vf k`, default
TTL, one fixed instant) in order. -/
def mapEntry {α : Type} (vf : String → α) (now ttl : ℚ) (ks : List String) :
    List (String × CacheEntry α) :=
  ks.map fun k => (k, ⟨vf k, now, ttl⟩)

/-- Fold `LRUCache.set` over a list of keys (the repeated write-through
of distinct requests). -/
def insertAll (cfg : Config) (now : ℚ) (vf : String → α) :
    LRUCache α × Metrics → List String → LRUCache α × Metrics
  | s, [] => s
  | s, k :: ks => insertAll cfg now vf (s.1.set cfg now s.2 k (vf k) none) ks

theorem odLookup_mapEntry {α : Type} (vf : String → α) (now ttl : ℚ)
    (ks : List String) (q : String) :
    odLookup (mapEntry vf now ttl ks) q =
      if q ∈ ks then some ⟨vf q, now, ttl⟩ else none := by
  induction ks with
  | nil => simp [mapEntry, odLookup]
  | cons k ks ih =>
      by_cases h : k = q
      · subst h; simp [mapEntry, odLookup]
      · simp only [mapEntry, List.map_cons, odLookup, if_neg h, List.mem_cons]
        simp only [mapEntry] at ih
        have hne : ¬ q = k := fun hh => h hh.symm
        simp [ih, hne]

theorem insertAll_mapEntry {α : Type} (cfg : Config) (hen : cfg.cache_enabled = true)
    (hcap : 1 ≤ cfg.cache_max_size) (now : ℚ) (vf : String → α) :
    ∀ (ks pre : List String) (m : Metrics), (pre ++ ks).Nodup →
      pre.length ≤ cfg.cache_max_size →
      (insertAll cfg now vf (⟨mapEntry vf now cfg.cache_ttl pre⟩, m) ks).1.cache
        = mapEntry vf now cfg.cache_ttl
            ((pre ++ ks).drop ((pre ++ ks).length - cfg.cache_max_size)) := by
  intro ks
  induction ks with
  | nil =>
      intro pre m hnd hlen
      simp [insertAll, Nat.sub_eq_zero_of_le hlen]
  | cons k ks ih =>
      intro pre m hnd hlen
      have hk_pre : k ∉ pre := by
        intro hm
        rcases List.nodup_append.mp hnd with ⟨-, -, hdisj⟩
        exact hdisj hm (List.mem_cons_self k ks)
      have hred : insertAll cfg now vf (⟨mapEntry vf now cfg.cache_ttl pre⟩, m) (k :: ks)
          = insertAll cfg now vf
              ((LRUCache.mk (mapEntry vf now cfg.cache_ttl pre)).set cfg now m
                k (vf k) none) ks := rfl
      by_cases h : cfg.cache_max_size ≤ pre.length
      · -- at capacity: the head of `pre` is evicted before inserting `k`
        have hpre_len : pre.length = cfg.cache_max_size := le_antisymm hlen h
        obtain ⟨p0, pt, rfl⟩ : ∃ p0 pt, pre = p0 :: pt := by
          cases pre with
          | nil =>
              exfalso
              rw [List.length_nil] at hpre_len
              omega
          | cons p0 pt => exact ⟨p0, pt, rfl⟩
        have hstep : ((LRUCache.mk (mapEntry vf now cfg.cache_ttl (p0 :: pt))).set cfg now m
            k (vf k) none).1.cache = mapEntry vf now cfg.cache_ttl (pt ++ [k]) := by
          have hklen : cfg.cache_max_size ≤ (mapEntry vf now cfg.cache_ttl (p0 :: pt)).length := by
            simpa [mapEntry] using h
          have hknotin : k ∉ (mapEntry vf now cfg.cache_ttl pt).map Prod.fst := by
            simp only [mapEntry, List.map_map]
            simpa using fun hm => hk_pre (List.mem_cons_of_mem p0 hm)
          simp only [LRUCache.set, hen, Bool.not_true, Bool.false_eq_true, if_false,
            if_pos hklen, Option.getD_none]
          rw [show (mapEntry vf now cfg.cache_ttl (p0 :: pt)).drop 1
              = mapEntry vf now cfg.cache_ttl pt from rfl]
          rw [odAssign_not_mem _ _ _ hknotin]
          simp [mapEntry]
        rw [hred]
        rcases hset : (LRUCache.mk (mapEntry vf now cfg.cache_ttl (p0 :: pt))).set cfg now m
            k (vf k) none with ⟨c2, m2⟩
        obtain ⟨l2⟩ := c2
        have hl2 : l2 = mapEntry vf now cfg.cache_ttl (pt ++ [k]) := by
          rw [← hstep, hset]
        subst hl2
        have hnd2 : ((pt ++ [k]) ++ ks).Nodup := by
          have hsub : List.Sublist ((pt ++ [k]) ++ ks) ((p0 :: pt) ++ k :: ks) := by
            rw [List.append_assoc, List.singleton_append]
            exact List.Sublist.append (List.sublist_cons_self p0 pt) (List.Sublist.refl _)
          exact hnd.sublist hsub
        have hlen2 : (pt ++ [k]).length ≤ cfg.cache_max_size := by
          simp only [List.length_append, List.length_singleton]
          simp only [List.length_cons] at hpre_len
          omega
        rw [ih (pt ++ [k]) m2 hnd2 hlen2]
        rw [List.append_assoc pt [k] ks, List.singleton_append, List.cons_append]
        have hamt : (p0 :: (pt ++ k :: ks)).length - cfg.cache_max_size
            = ((pt ++ k :: ks).length - cfg.cache_max_size) + 1 := by
          simp only [List.length_cons, List.length_append] at hpre_len ⊢
          omega
        rw [hamt, List.drop_succ_cons]
      · -- below capacity: plain append, no eviction
        have hstep : ((LRUCache.mk (mapEntry vf now cfg.cache_ttl pre)).set cfg now m
            k (vf k) none).1.cache = mapEntry vf now cfg.cache_ttl (pre ++ [k]) := by
          have hklen : ¬ cfg.cache_max_size ≤ (mapEntry vf now cfg.cache_ttl pre).length := by
            simpa [mapEntry] using h
          have hknotin : k ∉ (mapEntry vf now cfg.cache_ttl pre).map Prod.fst := by
            simp only [mapEntry, List.map_map]
            simpa using hk_pre
          simp only [LRUCache.set, hen, Bool.not_true, Bool.false_eq_true, if_false,
            if_neg hklen, Option.getD_none]
          rw [odAssign_not_mem _ _ _ hknotin]
          simp [mapEntry]
        rw [hred]
        rcases hset : (LRUCache.mk (mapEntry vf now cfg.cache_ttl pre)).set cfg now m
            k (vf k) none with ⟨c2, m2⟩
        obtain ⟨l2⟩ := c2
        have hl2 : l2 = mapEntry vf now cfg.cache_ttl (pre ++ [k]) := by
          rw [← hstep, hset]
        subst hl2
        have hnd2 : ((pre ++ [k]) ++ ks).Nodup := by
          rwa [List.append_assoc, List.singleton_append]
        have hlen2 : (pre ++ [k]).length ≤ cfg.cache_max_size := by
          simp only [List.length_append, List.length_singleton]
          omega
        rw [ih (pre ++ [k]) m2 hnd2 hlen2, List.append_assoc pre [k] ks,
          List.singleton_append]

/-- **C5.**  For an enabled cache of capacity ≥ 1: `set` records an
eviction exactly when the cache already holds at least `capacity`
entries (the check precedes the insertion, also for an existing key), in
which case the single least-recently-used entry — the head of the
recency order — is removed and its key is no longer retrievable; the
size never exceeds the capacity; and inserting a list of distinct keys
into an empty cache leaves exactly the `capacity` most recently inserted
keys, in order, each retrievable by `get` (and no other). -/
theorem claim_C5 {α : Type} (cfg : Config) (hen : cfg.cache_enabled = true)
    (hcap : 1 ≤ cfg.cache_max_size) :
    (∀ (c : LRUCache α) (m : Metrics) (key : String) (v : α) (ttl : Option ℚ) (now : ℚ),
      ((c.set cfg now m key v ttl).2.counters "cache_eviction"
          = m.counters "cache_eviction"
            + (if cfg.cache_max_size ≤ c.cache.length then 1 else 0)) ∧
      (c.cache.length ≤ cfg.cache_max_size →
        (c.set cfg now m key v ttl).1.cache.length ≤ cfg.cache_max_size) ∧
      (∀ (k0 : String) (e0 : CacheEntry α) rest, c.cache = (k0, e0) :: rest →
        cfg.cache_max_size ≤ c.cache.length → k0 ≠ key →
        k0 ∉ rest.map Prod.fst →
        odLookup (c.set cfg now m key v ttl).1.cache k0 = none)) ∧
    (∀ (ks : List String) (vf : String → α) (m : Metrics) (now : ℚ), ks.Nodup →
      (insertAll cfg now vf (⟨[]⟩, m) ks).1.cache
        = mapEntry vf now cfg.cache_ttl (ks.drop (ks.length - cfg.cache_max_size)) ∧
      (0 < cfg.cache_ttl → ∀ q,
        ((insertAll cfg now vf (⟨[]⟩, m) ks).1.get cfg now
            (insertAll cfg now vf (⟨[]⟩, m) ks).2 q).1
          = if q ∈ ks.drop (ks.length - cfg.cache_max_size) then some (vf q) else none)) := by
  constructor
  · intro c m key v ttl now
    refine ⟨?_, ?_, ?_⟩
    · by_cases h : cfg.cache_max_size ≤ c.cache.length <;>
        simp [LRUCache.set, hen, h, Metrics.increment, Metrics.set_gauge]
    · intro hle
      by_cases h : cfg.cache_max_size ≤ c.cache.length
      · simp only [LRUCache.set, hen, Bool.not_true, Bool.false_eq_true, if_false,
          if_pos h, length_odAssign]
        split_ifs <;> (rw [List.length_drop]; omega)
      · simp only [LRUCache.set, hen, Bool.not_true, Bool.false_eq_true, if_false,
          if_neg h, length_odAssign]
        split_ifs <;> omega
    · intro k0 e0 rest hc hfull hne hnotin
      rw [hc] at hfull
      simp only [LRUCache.set, hen, Bool.not_true, Bool.false_eq_true, if_false, hc,
        if_pos hfull, List.drop_succ_cons, List.drop_zero]
      rw [odLookup_odAssign_ne _ _ _ _ hne]
      exact (odLookup_eq_none_iff rest k0).mpr hnotin
  · intro ks vf m now hnd
    have hcache := insertAll_mapEntry cfg hen hcap now vf ks [] m (by simpa using hnd)
      (by simp)
    simp only [List.nil_append] at hcache
    rw [show (mapEntry vf now cfg.cache_ttl ([] : List String)) = [] from rfl] at hcache
    refine ⟨hcache, fun httl q => ?_⟩
    rw [show ((insertAll cfg now vf (⟨[]⟩, m) ks).1)
        = LRUCache.mk ((insertAll cfg now vf (⟨[]⟩, m) ks).1.cache) from rfl, hcache]
    by_cases hmem : q ∈ ks.drop (ks.length - cfg.cache_max_size)
    · have hexp : (CacheEntry.is_expired now
          ⟨vf q, now, cfg.cache_ttl⟩ : Bool) = false := by
        simp only [CacheEntry.is_expired, sub_self, decide_eq_false_iff_not]
        exact not_le.mpr httl
      simp [LRUCache.get, hen, odLookup_mapEntry, hmem, hexp]
    · simp [LRUCache.get, hen, odLookup_mapEntry, hmem]

/-- **C5, witness.**  Capacity 2, keys `a, b, c` inserted into an empty
cache: `a` is evicted; exactly `b, c` remain retrievable. -/
theorem claim_C5_witness :
    (insertAll ⟨[], true, 5, 60, 2, 3, true, 2, 3600, true, 60, 10⟩ 0 (fun k => k)
        (⟨[]⟩, emptyMetrics) ["a", "b", "c"]).1.cache
      = [("b", ⟨"b", 0, 3600⟩), ("c", ⟨"c", 0, 3600⟩)] ∧
    ((insertAll ⟨[], true, 5, 60, 2, 3, true, 2, 3600, true, 60, 10⟩ 0 (fun k => k)
        (⟨[]⟩, emptyMetrics) ["a", "b", "c"]).1.get
          ⟨[], true, 5, 60, 2, 3, true, 2, 3600, true, 60, 10⟩ 0
          (insertAll ⟨[], true, 5, 60, 2, 3, true, 2, 3600, true, 60, 10⟩ 0 (fun k => k)
            (⟨[]⟩, emptyMetrics) ["a", "b", "c"]).2 "a").1 = none ∧
    ((insertAll ⟨[], true, 5, 60, 2, 3, true, 2, 3600, true, 60, 10⟩ 0 (fun k => k)
        (⟨[]⟩, emptyMetrics) ["a", "b", "c"]).1.get
          ⟨[], true, 5, 60, 2, 3, true, 2, 3600, true, 60, 10⟩ 0
          (insertAll ⟨[], true, 5, 60, 2, 3, true, 2, 3600, true, 60, 10⟩ 0 (fun k => k)
            (⟨[]⟩, emptyMetrics) ["a", "b", "c"]).2 "c").1 = some "c" := by
  have h := (claim_C5 ⟨[], true, 5, 60, 2, 3, true, 2, 3600, true, 60, 10⟩ rfl
    (by norm_num)).2 ["a", "b", "c"] (fun k => k) emptyMetrics 0 (by decide)
  have hget := h.2 (by norm_num)
  refine ⟨h.1, ?_, ?_⟩
  · simpa using hget "a"
  · simpa using hget "c"

/-- **C3, counterexample.**  First attempt returns a parse failure
(`ok none`), the second attempt would succeed; with `max_attempts = 3`
the wrapper nevertheless returns the no-result after a single
`_call_llm` invocation — the parse failure is *not* treated as a failed
attempt, no retry happens although attempts remain. -/
theorem claim_C3_counterexample :
    call_llm_with_retry_wrapper
        (fun i => if i = 0 then CallOutcome.ok none
                  else CallOutcome.ok (some (TransResult.mk "ls" "list files" none true))) 3
      = (.ok none, 1) ∧ (1 : Nat) < 3 := by
  exact ⟨rfl, by norm_num⟩

theorem retryFrom_ok {α : Type} (oc : Nat → CallOutcome α) (r : Option α) :
    ∀ (j rem a : Nat), j < rem →
      (∀ i, i < j → oc (a + i) = .raises) → oc (a + j) = .ok r →
      retryFrom oc a rem = (.ok r, a + j + 1) := by
  intro j
  induction j with
  | zero =>
      intro rem a hj hraise hok
      cases rem with
      | zero => omega
      | succ rr =>
          simp only [Nat.add_zero] at hok
          simp [retryFrom, hok]
  | succ j ih =>
      intro rem a hj hraise hok
      cases rem with
      | zero => omega
      | succ rr =>
          have h0 : oc a = .raises := by
            have := hraise 0 (Nat.succ_pos j)
            simpa using this
          have hrec := ih rr (a + 1) (Nat.lt_of_succ_lt_succ hj)
            (fun i hi => by
              have := hraise (i + 1) (Nat.succ_lt_succ hi)
              have harith : a + 1 + i = a + (i + 1) := by omega
              rw [harith]; exact this)
            (by
              have harith : a + 1 + j = a + (j + 1) := by omega
              rw [harith]; exact hok)
          simp only [retryFrom, h0]
          rw [hrec]
          congr 1
          omega

theorem retryFrom_all_raise {α : Type} (oc : Nat → CallOutcome α) :
    ∀ (rem a : Nat), (∀ i, i < rem → oc (a + i) = .raises) →
      retryFrom oc a rem = (.exn, a + rem) := by
  intro rem
  induction rem with
  | zero => intro a _; simp [retryFrom]
  | succ rr ih =>
      intro a hraise
      have h0 : oc a = .raises := by simpa using hraise 0 (Nat.succ_pos rr)
      simp only [retryFrom, h0]
      rw [ih (a + 1) (fun i hi => by
        have hx := hraise (i + 1) (Nat.succ_lt_succ hi)
        have harith : a + 1 + i = a + (i + 1) := by omega
        rw [harith]; exact hx)]
      congr 1
      omega

/-- **C3** (amended).  The retried remote call returns immediately on
*any* normal return of `_call_llm`, including the `none` of a failed
JSON parse: if the first `j` attempts raise and attempt `j` returns a
parse result `r` (possibly `none`), the wrapper stops after `j + 1`
invocations with exactly that result — a parse failure is *not*
equivalent to a failed attempt and consumes no further retries.  Only
raising attempts are retried; when every attempt raises, the wrapper
re-raises after exactly `max_attempts` invocations. -/
theorem claim_C3 {α : Type} (oc : Nat → CallOutcome α) (max_attempts j : Nat)
    (r : Option α) (hj : j < max_attempts)
    (hraise : ∀ i, i < j → oc i = .raises) (hok : oc j = .ok r) :
    call_llm_with_retry_wrapper oc max_attempts = (.ok r, j + 1) ∧
    (∀ oc2 : Nat → CallOutcome α, (∀ i, i < max_attempts → oc2 i = .raises) →
      call_llm_with_retry_wrapper oc2 max_attempts = (.exn, max_attempts)) := by
  constructor
  · have := retryFrom_ok oc r j max_attempts 0 hj
      (fun i hi => by simpa using hraise i hi) (by simpa using hok)
    simpa [call_llm_with_retry_wrapper] using this
  · intro oc2 hall
    have := retryFrom_all_raise oc2 max_attempts 0 (fun i hi => by simpa using hall i hi)
    simpa [call_llm_with_retry_wrapper] using this

/-- **C3, witness.**  Two raising attempts, then a parse failure at
attempt 2: with `max_attempts = 5` the wrapper stops after 3 calls with
no result; an all-raising oracle exhausts all 5 attempts and raises. -/
theorem claim_C3_witness :
    call_llm_with_retry_wrapper
        (fun i => if i < 2 then CallOutcome.raises else CallOutcome.ok none) 5
      = ((.ok none : PyResult (Option TransResult)), 3) ∧
    call_llm_with_retry_wrapper (fun _ => (CallOutcome.raises : CallOutcome TransResult)) 5
      = (.exn, 5) := by
  have h := claim_C3 (fun i => if i < 2 then CallOutcome.raises else CallOutcome.ok none)
    5 2 (none : Option TransResult) (by norm_num)
    (fun i hi => by simp [hi]) (by norm_num)
  exact ⟨h.1, h.2 _ (fun i _ => rfl)⟩

theorem fallback_loop_no_raise (oc : Nat → CallOutcome TransResult) :
    ∀ (models : List String) (i : Nat) (cur : String),
      (∀ kk, kk < models.length → oc (i + kk) ≠ .raises) →
      (fallback_loop oc models i cur).2 = cur := by
  intro models
  induction models with
  | nil => intro i cur _; rfl
  | cons fm rest ih =>
      intro i cur hno
      cases h0 : oc i with
      | raises => exact absurd (by simpa using h0) (by simpa using hno 0 (Nat.succ_pos _))
      | ok res =>
          cases res with
          | none =>
              simp only [fallback_loop, h0]
              exact ih (i + 1) cur (fun kk hk => by
                have hx := hno (kk + 1) (by simpa using Nat.succ_lt_succ hk)
                have harith : i + 1 + kk = i + (kk + 1) := by omega
                rw [harith]; exact hx)
          | some v => simp [fallback_loop, h0]

theorem fallback_loop_raise (oc : Nat → CallOutcome TransResult) :
    ∀ (ms1 : List String) (fm : String) (ms2 : List String) (i : Nat) (cur : String),
      (∀ kk, kk < ms1.length → ∀ v, oc (i + kk) ≠ .ok (some v)) →
      oc (i + ms1.length) = .raises →
      (∀ kk, kk < ms2.length → oc (i + ms1.length + 1 + kk) ≠ .raises) →
      (fallback_loop oc (ms1 ++ fm :: ms2) i cur).2 = fm := by
  intro ms1
  induction ms1 with
  | nil =>
      intro fm ms2 i cur _ hr hafter
      simp only [List.length_nil, Nat.add_zero] at hr hafter
      simp only [List.nil_append, fallback_loop, hr]
      exact fallback_loop_no_raise oc ms2 (i + 1) fm (fun kk hk => hafter kk hk)
  | cons m ms1' ih =>
      intro fm ms2 i cur hreach hr hafter
      have harith : ∀ kk, i + 1 + kk = i + (kk + 1) := fun kk => by omega
      have hlen : i + (m :: ms1').length = i + 1 + ms1'.length := by
        simp only [List.length_cons]; omega
      have hreach' : ∀ kk, kk < ms1'.length → ∀ v, oc (i + 1 + kk) ≠ .ok (some v) := by
        intro kk hk v
        rw [harith kk]
        exact hreach (kk + 1) (by simpa using Nat.succ_lt_succ hk) v
      have hr' : oc (i + 1 + ms1'.length) = .raises := by
        rw [← hlen]; exact hr
      have hafter' : ∀ kk, kk < ms2.length →
          oc (i + 1 + ms1'.length + 1 + kk) ≠ .raises := by
        intro kk hk
        rw [← hlen]
        exact hafter kk hk
      cases h0 : oc i with
      | raises =>
          simp only [List.cons_append, fallback_loop, h0]
          exact ih fm ms2 (i + 1) m hreach' hr' hafter'
      | ok res =>
          cases res with
          | none =>
              simp only [List.cons_append, fallback_loop, h0]
              exact ih fm ms2 (i + 1) cur hreach' hr' hafter'
          | some v =>
              exact absurd (by simpa using h0)
                (by simpa using hreach 0 (Nat.succ_pos _) v)

/-- **C10.**  In `_fallback_translation`, `config.llm_model` is written
back to the saved name only on the non-raising path of each iteration:
if no fallback invocation raises, the final `config.llm_model` is the
original name; but if the invocation of fallback model `fm` raises
(after earlier models were tried without producing a truthy result) and
no later-tried fallback raises, the function returns with
`config.llm_model` permanently set to `fm`, so every subsequent
primary-path `_call_llm` uses `fm` instead of the configured primary. -/
theorem claim_C10 (cfg : Config) (oc : Nat → CallOutcome TransResult)
    (cur : String) (m : Metrics) :
    ((∀ kk, kk < cfg.fallback_models.length → oc kk ≠ .raises) →
      (fallback_translation cfg oc cur m).2.1 = cur) ∧
    (∀ ms1 fm ms2, cfg.fallback_models = ms1 ++ fm :: ms2 →
      (∀ kk, kk < ms1.length → ∀ v, oc kk ≠ .ok (some v)) →
      oc ms1.length = .raises →
      (∀ kk, kk < ms2.length → oc (ms1.length + 1 + kk) ≠ .raises) →
      (fallback_translation cfg oc cur m).2.1 = fm) := by
  constructor
  · intro hno
    unfold fallback_translation
    simp only
    exact fallback_loop_no_raise oc cfg.fallback_models 0 cur
      (fun kk hk => by simpa using hno kk hk)
  · intro ms1 fm ms2 hsplit hreach hr hafter
    unfold fallback_translation
    simp only [hsplit]
    exact fallback_loop_raise oc ms1 fm ms2 0 cur
      (fun kk hk v => by simpa using hreach kk hk v)
      (by simpa using hr)
      (fun kk hk => by simpa using hafter kk hk)

/-- **C10, witness.**  Fallback list `["m1", "m2"]`, `m1` raising and
`m2` returning no result: the final `llm_model` is `"m1"`, not the
original `"primary"`; with neither raising it stays `"primary"`. -/
theorem claim_C10_witness :
    (fallback_translation ⟨["m1", "m2"], true, 5, 60, 2, 3, true, 10, 3600, true, 60, 10⟩
        (fun i => if i = 0 then CallOutcome.raises else CallOutcome.ok none)
        "primary" emptyMetrics).2.1 = "m1" ∧
    (fallback_translation ⟨["m1", "m2"], true, 5, 60, 2, 3, true, 10, 3600, true, 60, 10⟩
        (fun _ => CallOutcome.ok none) "primary" emptyMetrics).2.1 = "primary" := by
  constructor
  · exact (claim_C10 ⟨["m1", "m2"], true, 5, 60, 2, 3, true, 10, 3600, true, 60, 10⟩
      (fun i => if i = 0 then CallOutcome.raises else CallOutcome.ok none)
      "primary" emptyMetrics).2 [] "m1" ["m2"] rfl
      (fun kk hk v => by simp at hk) rfl
      (fun kk hk => by
        have h1 : 0 + 1 + kk ≠ 0 := by omega
        simp [h1])
  · exact (claim_C10 ⟨["m1", "m2"], true, 5, 60, 2, 3, true, 10, 3600, true, 60, 10⟩
      (fun _ => CallOutcome.ok none) "primary" emptyMetrics).1
      (fun kk hk => by simp)

/-- **C8.**  When the rate limiter denies admission, `translate_command`
returns `None` immediately and neither the cache (contents and recency
order), nor the circuit breaker (state and all counters/timestamps),
nor the metrics, nor `config.llm_model` are touched. -/
theorem claim_C8 (cfg : Config) (now : ℚ) (st : SysState) (key : String)
    (primary fb : Nat → CallOutcome TransResult)
    (hdeny : (st.tb.allow_request cfg now).1 = false) :
    (translate_command cfg now st key primary fb).1 = .ok none ∧
    (translate_command cfg now st key primary fb).2.cache = st.cache ∧
    (translate_command cfg now st key primary fb).2.cb = st.cb ∧
    (translate_command cfg now st key primary fb).2.metrics = st.metrics ∧
    (translate_command cfg now st key primary fb).2.llm_model = st.llm_model := by
  rcases hreq : st.tb.allow_request cfg now with ⟨b, tb2⟩
  rw [hreq] at hdeny
  simp only at hdeny
  subst hdeny
  simp [translate_command, hreq]

/-- **C8, witness.**  A bucket with zero tokens denies; the populated
cache and the breaker counters survive untouched. -/
theorem claim_C8_witness :
    (translate_command ⟨[], true, 5, 60, 2, 3, true, 10, 3600, true, 60, 3⟩ 0
        ⟨"primary", ⟨[("x", ⟨⟨"c", "e", none, true⟩, 0, 5⟩)]⟩,
          ⟨.CLOSED, 2, 0, some 0, 0⟩, ⟨0, 0, 1⟩, emptyMetrics⟩
        "k" (fun _ => .raises) (fun _ => .raises)).1 = .ok none ∧
    (translate_command ⟨[], true, 5, 60, 2, 3, true, 10, 3600, true, 60, 3⟩ 0
        ⟨"primary", ⟨[("x", ⟨⟨"c", "e", none, true⟩, 0, 5⟩)]⟩,
          ⟨.CLOSED, 2, 0, some 0, 0⟩, ⟨0, 0, 1⟩, emptyMetrics⟩
        "k" (fun _ => .raises) (fun _ => .raises)).2.cache
      = ⟨[("x", ⟨⟨"c", "e", none, true⟩, 0, 5⟩)]⟩ ∧
    (translate_command ⟨[], true, 5, 60, 2, 3, true, 10, 3600, true, 60, 3⟩ 0
        ⟨"primary", ⟨[("x", ⟨⟨"c", "e", none, true⟩, 0, 5⟩)]⟩,
          ⟨.CLOSED, 2, 0, some 0, 0⟩, ⟨0, 0, 1⟩, emptyMetrics⟩
        "k" (fun _ => .raises) (fun _ => .raises)).2.cb
      = ⟨.CLOSED, 2, 0, some 0, 0⟩ := by
  have h := claim_C8 ⟨[], true, 5, 60, 2, 3, true, 10, 3600, true, 60, 3⟩ 0
    ⟨"primary", ⟨[("x", ⟨⟨"c", "e", none, true⟩, 0, 5⟩)]⟩,
      ⟨.CLOSED, 2, 0, some 0, 0⟩, ⟨0, 0, 1⟩, emptyMetrics⟩
    "k" (fun _ => .raises) (fun _ => .raises)
    (by norm_num [TokenBucket.allow_request])
  exact ⟨h.1, h.2.1, h.2.2.1⟩

theorem fallback_loop_all_fail (oc : Nat → CallOutcome TransResult) :
    ∀ (models : List String) (i : Nat) (cur : String),
      (∀ kk, kk < models.length → ∀ v, oc (i + kk) ≠ .ok (some v)) →
      (fallback_loop oc models i cur).1 = degraded_result := by
  intro models
  induction models with
  | nil => intro i cur _; rfl
  | cons fm rest ih =>
      intro i cur hfail
      have hshift : ∀ kk, kk < rest.length → ∀ v, oc (i + 1 + kk) ≠ .ok (some v) := by
        intro kk hk v
        have harith : i + 1 + kk = i + (kk + 1) := by omega
        rw [harith]
        exact hfail (kk + 1) (by simpa using Nat.succ_lt_succ hk) v
      cases h0 : oc i with
      | raises => simp only [fallback_loop, h0]; exact ih (i + 1) fm hshift
      | ok res =>
          cases res with
          | none => simp only [fallback_loop, h0]; exact ih (i + 1) cur hshift
          | some v =>
              exact absurd (by simpa using h0) (by simpa using hfail 0 (Nat.succ_pos _) v)

/-- **C1, counterexample.**  The claim includes rate-limiter denial in
its worst case and asserts the call then still returns the synthesized
degraded result, never an empty/absent one.  But with an empty token
bucket `translate_command` returns `None` immediately — an absent
result, not the degraded record. -/
theorem claim_C1_counterexample :
    (translate_command ⟨["m1"], true, 5, 60, 2, 3, true, 10, 3600, true, 60, 3⟩ 0
        ⟨"primary", ⟨[]⟩, ⟨.CLOSED, 0, 0, none, 0⟩, ⟨0, 0, 1⟩, emptyMetrics⟩
        "k" (fun _ => .raises) (fun _ => .raises)).1 = .ok none ∧
    (PyResult.ok (none : Option TransResult)) ≠ .ok (some degraded_result) := by
  constructor
  · have hdeny : ((TokenBucket.mk 0 0 1).allow_request
        ⟨["m1"], true, 5, 60, 2, 3, true, 10, 3600, true, 60, 3⟩ 0).1 = false := by
      norm_num [TokenBucket.allow_request]
    rcases hreq : (TokenBucket.mk 0 0 1).allow_request
        ⟨["m1"], true, 5, 60, 2, 3, true, 10, 3600, true, 60, 3⟩ 0 with ⟨b, tb2⟩
    rw [hreq] at hdeny
    simp only at hdeny
    subst hdeny
    simp [translate_command, hreq]
  · simp

/-- **C1** (amended).  `translate_command` never lets an exception
escape.  On rate-limiter denial it returns `None` immediately (no
degraded result).  The synthesized degraded record (empty command,
`safe = false`) is returned exactly on the paths that reach the fallback
chain with every fallback failing: circuit-breaker denial after a cache
miss, or exhaustion of the retried primary call (every attempt
raising). -/
theorem claim_C1 (cfg : Config) (now : ℚ) (st : SysState) (key : String)
    (primary fb : Nat → CallOutcome TransResult) :
    (translate_command cfg now st key primary fb).1 ≠ .exn ∧
    ((st.tb.allow_request cfg now).1 = false →
      (translate_command cfg now st key primary fb).1 = .ok none) ∧
    ((st.tb.allow_request cfg now).1 = true →
      (st.cache.get cfg now st.metrics key).1 = none →
      (st.cb.should_allow_request cfg now).1 = false →
      (∀ kk, kk < cfg.fallback_models.length → ∀ v, fb kk ≠ .ok (some v)) →
      (translate_command cfg now st key primary fb).1 = .ok (some degraded_result)) ∧
    ((st.tb.allow_request cfg now).1 = true →
      (st.cache.get cfg now st.metrics key).1 = none →
      (st.cb.should_allow_request cfg now).1 = true →
      (∀ i, primary i = .raises) →
      (∀ kk, kk < cfg.fallback_models.length → ∀ v, fb kk ≠ .ok (some v)) →
      (translate_command cfg now st key primary fb).1 = .ok (some degraded_result)) := by
  rcases hreq : st.tb.allow_request cfg now with ⟨b, tb2⟩
  rcases hget : st.cache.get cfg now st.metrics key with ⟨cached, cache2, m2⟩
  rcases hcb : st.cb.should_allow_request cfg now with ⟨allowcb, cb2⟩
  have hfb : ∀ (m : Metrics),
      (∀ kk, kk < cfg.fallback_models.length → ∀ v, fb kk ≠ .ok (some v)) →
      (fallback_translation cfg fb st.llm_model m).1 = degraded_result := by
    intro m hfail
    unfold fallback_translation
    simp only
    exact fallback_loop_all_fail fb cfg.fallback_models 0 st.llm_model
      (fun kk hk v => by simpa using hfail kk hk v)
  refine ⟨?_, ?_, ?_, ?_⟩
  · -- never an exception
    cases b with
    | false => simp [translate_command, hreq]
    | true =>
        cases cached with
        | some v => simp [translate_command, hreq, hget]
        | none =>
            cases allowcb with
            | false => simp [translate_command, hreq, hget, hcb]
            | true =>
                rcases hwrap : call_llm_with_retry_wrapper primary cfg.retry_max_attempts
                  with ⟨wr, calls⟩
                cases wr with
                | ok res =>
                    cases res <;> simp [translate_command, hreq, hget, hcb, hwrap]
                | exn => simp [translate_command, hreq, hget, hcb, hwrap]
  · -- rate-limited: immediate None
    intro hdeny
    simp only at hdeny
    subst hdeny
    simp [translate_command, hreq]
  · -- breaker denial, all fallbacks fail: degraded result
    intro hallow hmiss hdeny hfail
    simp only at hallow hmiss hdeny
    subst hallow; subst hmiss; subst hdeny
    simp [translate_command, hreq, hget, hcb, hfb _ hfail]
  · -- primary exhaustion, all fallbacks fail: degraded result
    intro hallow hmiss hadmit hprim hfail
    simp only at hallow hmiss hadmit
    subst hallow; subst hmiss; subst hadmit
    have hwrap : call_llm_with_retry_wrapper primary cfg.retry_max_attempts
        = (.exn, cfg.retry_max_attempts) := by
      have := retryFrom_all_raise primary cfg.retry_max_attempts 0
        (fun i _ => hprim (0 + i))
      simpa [call_llm_with_retry_wrapper] using this
    simp [translate_command, hreq, hget, hcb, hwrap, hfb _ hfail]

/-- **C1, witness.**  With the breaker OPEN (and no recorded failure
time), a cache miss and an all-raising fallback list, the call returns
the degraded result; and it is not an exception. -/
theorem claim_C1_witness :
    (translate_command ⟨["m1"], true, 5, 60, 2, 3, false, 10, 3600, false, 60, 3⟩ 0
        ⟨"primary", ⟨[]⟩, ⟨.OPEN, 5, 0, none, 0⟩, ⟨3, 0, 1⟩, emptyMetrics⟩
        "k" (fun _ => .raises) (fun _ => .raises)).1 = .ok (some degraded_result) ∧
    (translate_command ⟨["m1"], true, 5, 60, 2, 3, false, 10, 3600, false, 60, 3⟩ 0
        ⟨"primary", ⟨[]⟩, ⟨.OPEN, 5, 0, none, 0⟩, ⟨3, 0, 1⟩, emptyMetrics⟩
        "k" (fun _ => .raises) (fun _ => .raises)).1 ≠ .exn := by
  have h := claim_C1 ⟨["m1"], true, 5, 60, 2, 3, false, 10, 3600, false, 60, 3⟩ 0
    ⟨"primary", ⟨[]⟩, ⟨.OPEN, 5, 0, none, 0⟩, ⟨3, 0, 1⟩, emptyMetrics⟩
    "k" (fun _ => .raises) (fun _ => .raises)
  refine ⟨h.2.2.1 rfl rfl rfl (fun kk hk v => by simp), h.1⟩

/-! ### Binary-heap lemmas for the task queue -/

/-- `j` is a child slot of `i` in the implicit binary tree of the heap
array. -/
def childOf (i j : Nat) : Prop := j = 2 * i + 1 ∨ j = 2 * i + 2

/-- The heap property of CPython's `heapq`: every entry is ≤ its
children (comparison is `priority <`, see `entryLt`). -/
def heapInv (l : List Entry) : Prop :=
  ∀ i j, childOf i j → j < l.length → (hget l i).priority ≤ (hget l j).priority

theorem childOf_lt {i j : Nat} (h : childOf i j) : i < j := by
  rcases h with h | h <;> omega

theorem childOf_pos {i j : Nat} (h : childOf i j) : 0 < j := by
  rcases h with h | h <;> omega

theorem childOf_parent {j : Nat} (h : 0 < j) : childOf ((j - 1) / 2) j := by
  unfold childOf
  omega

theorem childOf_parent_uniq {i j : Nat} (h : childOf i j) : i = (j - 1) / 2 := by
  rcases h with h | h <;> omega

theorem hget_set_self (l : List Entry) (i : Nat) (x : Entry) (h : i < l.length) :
    hget (l.set i x) i = x := by
  simp [hget, List.getD_eq_getElem?_getD, List.getElem?_set_self h]

theorem hget_set_ne (l : List Entry) (i j : Nat) (x : Entry) (h : i ≠ j) :
    hget (l.set i x) j = hget l j := by
  simp [hget, List.getD_eq_getElem?_getD, List.getElem?_set_ne h]

theorem hget_append_lt (l l2 : List Entry) (i : Nat) (h : i < l.length) :
    hget (l ++ l2) i = hget l i := by
  simp [hget, List.getD_eq_getElem?_getD, List.getElem?_append_left h]

theorem hget_dropLast (l : List Entry) (i : Nat) (h : i + 1 < l.length) :
    hget l.dropLast i = hget l i := by
  have hx : l.dropLast[i]? = l[i]? := by
    rw [List.dropLast_eq_take, List.getElem?_take_of_lt]
    omega
  simp [hget, List.getD_eq_getElem?_getD, hx]

theorem entryLt_true {a b : Entry} (h : entryLt a b = true) : a.priority < b.priority := by
  simpa [entryLt] using h

theorem entryLt_false {a b : Entry} (h : entryLt a b = false) : b.priority ≤ a.priority := by
  simpa [entryLt] using h

/-- Heap property away from the hole `pos` (the hole's content is about
to be overwritten and carries no information). -/
def hole1 (l : List Entry) (pos : Nat) : Prop :=
  ∀ i j, childOf i j → j < l.length → i ≠ pos → j ≠ pos →
    (hget l i).priority ≤ (hget l j).priority

/-- The hole's children already dominate the hole's parent, so moving a
value ≥ the parent into the hole preserves the heap. -/
def hole2 (l : List Entry) (pos : Nat) : Prop :=
  ∀ j, childOf pos j → j < l.length → 0 < pos →
    (hget l ((pos - 1) / 2)).priority ≤ (hget l j).priority

/-- Invariant of `_siftdown`: heap away from the hole, the parent
condition, and `x` (the item being placed) dominated by the hole's
children. -/
def holeInvD (l : List Entry) (pos : Nat) (x : Entry) : Prop :=
  hole1 l pos ∧ hole2 l pos ∧
  (∀ j, childOf pos j → j < l.length → x.priority ≤ (hget l j).priority)

/-- Writing `x` into the hole yields a heap, provided `x` is ≥ the
hole's parent. -/
theorem holeInvD_set (l : List Entry) (pos : Nat) (x : Entry)
    (hlen : pos < l.length) (hinv : holeInvD l pos x)
    (hpar : 0 < pos → (hget l ((pos - 1) / 2)).priority ≤ x.priority) :
    heapInv (l.set pos x) := by
  intro i j hij hjlen
  rw [List.length_set] at hjlen
  by_cases hi : i = pos
  · subst hi
    have hjne : i ≠ j := Nat.ne_of_lt (childOf_lt hij)
    rw [hget_set_self l i x hlen, hget_set_ne l i j x hjne]
    exact hinv.2.2 j hij hjlen
  · by_cases hj : j = pos
    · subst hj
      have hieq : i = (j - 1) / 2 := childOf_parent_uniq hij
      have hjpos : 0 < j := childOf_pos hij
      rw [hget_set_self l j x hlen, hget_set_ne l j i x (Ne.symm hi)]
      rw [hieq]
      exact hpar hjpos
    · rw [hget_set_ne l pos i x (fun hh => hi hh.symm),
        hget_set_ne l pos j x (fun hh => hj hh.symm)]
      exact hinv.1 i j hij hjlen hi hj

/-- One bubble-up step of `_siftdown` preserves the hole invariant. -/
theorem holeInvD_step (l : List Entry) (pos : Nat) (x : Entry)
    (hpos : 0 < pos) (hlen : pos < l.length) (hinv : holeInvD l pos x)
    (hlt : entryLt x (hget l ((pos - 1) / 2)) = true) :
    holeInvD (l.set pos (hget l ((pos - 1) / 2))) ((pos - 1) / 2) x := by
  have hpp_lt : (pos - 1) / 2 < pos := by omega
  have hpp_ne : (pos - 1) / 2 ≠ pos := Nat.ne_of_lt hpp_lt
  obtain ⟨hA, hC, hB⟩ := hinv
  refine ⟨?_, ?_, ?_⟩
  · -- hole1 at the new hole (the old parent position)
    intro i j hij hjlen hine hjne
    rw [List.length_set] at hjlen
    by_cases hi : i = pos
    · subst hi
      have hjne2 : i ≠ j := Nat.ne_of_lt (childOf_lt hij)
      rw [hget_set_self l i _ hlen, hget_set_ne l i j _ hjne2]
      exact hC j hij hjlen hpos
    · by_cases hj : j = pos
      · subst hj
        exact absurd (childOf_parent_uniq hij) (by simpa using hine)
      · rw [hget_set_ne l pos i _ (fun hh => hi hh.symm),
          hget_set_ne l pos j _ (fun hh => hj hh.symm)]
        exact hA i j hij hjlen hi hj
  · -- hole2 at the new hole
    intro j hij hjlen hppos
    rw [List.length_set] at hjlen
    set g := ((pos - 1) / 2 - 1) / 2 with hg
    have hgchild : childOf g ((pos - 1) / 2) := childOf_parent hppos
    have hg_lt : g < (pos - 1) / 2 := childOf_lt hgchild
    have hg_ne : g ≠ pos := Nat.ne_of_lt (lt_trans hg_lt hpp_lt)
    have hpp_len : (pos - 1) / 2 < l.length := lt_trans hpp_lt hlen
    rw [hget_set_ne l pos g _ (fun hh => hg_ne hh.symm)]
    by_cases hj : j = pos
    · subst hj
      rw [hget_set_self l j _ hlen]
      exact hA g ((j - 1) / 2) hgchild hpp_len hg_ne hpp_ne
    · rw [hget_set_ne l pos j _ (fun hh => hj hh.symm)]
      exact le_trans (hA g ((pos - 1) / 2) hgchild hpp_len hg_ne hpp_ne)
        (hA ((pos - 1) / 2) j hij hjlen hpp_ne hj)
  · -- x is dominated by the children of the new hole
    intro j hij hjlen
    rw [List.length_set] at hjlen
    have hxp : x.priority ≤ (hget l ((pos - 1) / 2)).priority :=
      le_of_lt (entryLt_true hlt)
    by_cases hj : j = pos
    · subst hj
      rw [hget_set_self l j _ hlen]
      exact hxp
    · rw [hget_set_ne l pos j _ (fun hh => hj hh.symm)]
      exact le_trans hxp (hA ((pos - 1) / 2) j hij hjlen hpp_ne hj)

/-- `_siftdown` (fuel version) turns a hole invariant into the heap
property. -/
theorem siftdownGo_heapInv (x : Entry) :
    ∀ (fuel : Nat) (l : List Entry) (pos : Nat),
      pos ≤ fuel → pos < l.length → holeInvD l pos x →
      heapInv (siftdownGo x fuel l 0 pos) := by
  intro fuel
  induction fuel with
  | zero =>
      intro l pos hf hlen hinv
      have hp0 : pos = 0 := Nat.le_zero.mp hf
      subst hp0
      show heapInv (l.set 0 x)
      exact holeInvD_set l 0 x hlen hinv (fun h0 => absurd h0 (by omega))
  | succ fuel ih =>
      intro l pos hf hlen hinv
      by_cases hpos : 0 < pos
      · cases hlt : entryLt x (hget l ((pos - 1) / 2)) with
        | true =>
            have hred : siftdownGo x (fuel + 1) l 0 pos
                = siftdownGo x fuel (l.set pos (hget l ((pos - 1) / 2))) 0 ((pos - 1) / 2) := by
              simp [siftdownGo, hpos, hlt]
            rw [hred]
            have hpp_lt : (pos - 1) / 2 < pos := by omega
            exact ih (l.set pos (hget l ((pos - 1) / 2))) ((pos - 1) / 2)
              (by omega)
              (by rw [List.length_set]; exact lt_trans hpp_lt hlen)
              (holeInvD_step l pos x hpos hlen hinv hlt)
        | false =>
            have hred : siftdownGo x (fuel + 1) l 0 pos = l.set pos x := by
              simp [siftdownGo, hpos, hlt]
            rw [hred]
            exact holeInvD_set l pos x hlen hinv (fun _ => entryLt_false hlt)
      · have hp0 : pos = 0 := by omega
        subst hp0
        have hred : siftdownGo x (fuel + 1) l 0 0 = l.set 0 x := by
          simp [siftdownGo]
        rw [hred]
        exact holeInvD_set l 0 x hlen hinv (fun h0 => absurd h0 (by omega))

/-- `heappush` preserves the heap property. -/
theorem heappush_heapInv (l : List Entry) (x : Entry) (hinv : heapInv l) :
    heapInv (heappush l x) := by
  unfold heappush siftdown
  have hx : hget (l ++ [x]) l.length = x := by
    simp [hget, List.getD_eq_getElem?_getD, List.getElem?_concat_length]
  rw [hx]
  apply siftdownGo_heapInv x l.length (l ++ [x]) l.length le_rfl (by simp)
  refine ⟨?_, ?_, ?_⟩
  · intro i j hij hjlen hine hjne
    simp only [List.length_append, List.length_singleton] at hjlen
    have hjl : j < l.length := by omega
    have hil : i < l.length := lt_trans (childOf_lt hij) hjl
    rw [hget_append_lt l [x] i hil, hget_append_lt l [x] j hjl]
    exact hinv i j hij hjl
  · intro j hij hjlen _
    exfalso
    rcases hij with h | h <;>
      (simp only [List.length_append, List.length_singleton] at hjlen; omega)
  · intro j hij hjlen
    exfalso
    rcases hij with h | h <;>
      (simp only [List.length_append, List.length_singleton] at hjlen; omega)

/-- The root of a heap has minimal priority. -/
theorem heapInv_root_min (l : List Entry) (hinv : heapInv l) :
    ∀ j, j < l.length → (hget l 0).priority ≤ (hget l j).priority := by
  intro j
  induction j using Nat.strong_induction_on with
  | _ j ih =>
      intro hj
      cases Nat.eq_zero_or_pos j with
      | inl h0 => subst h0; exact le_refl _
      | inr hpos =>
          have hp := childOf_parent hpos
          have hplt : (j - 1) / 2 < j := by omega
          exact le_trans (ih _ hplt (lt_trans hplt hj)) (hinv _ _ hp hj)

/-- Moving the chosen child into the hole pushes the hole down one level
preserving both hole invariants (the chosen child is ≤ its sibling). -/
theorem siftup_step_inv (l : List Entry) (pos c : Nat)
    (hlen : pos < l.length) (hc_child : childOf pos c) (hc_len : c < l.length)
    (hsib : ∀ j, childOf pos j → j < l.length → j ≠ c →
      (hget l c).priority ≤ (hget l j).priority)
    (h1 : hole1 l pos) (h2 : hole2 l pos) :
    hole1 (l.set pos (hget l c)) c ∧ hole2 (l.set pos (hget l c)) c := by
  have hpc : pos < c := childOf_lt hc_child
  have hpc_ne : c ≠ pos := Nat.ne_of_gt hpc
  constructor
  · intro i j hij hjlen hine hjne
    rw [List.length_set] at hjlen
    by_cases hi : i = pos
    · subst hi
      have hij_ne : i ≠ j := Nat.ne_of_lt (childOf_lt hij)
      rw [hget_set_self l i _ hlen, hget_set_ne l i j _ hij_ne]
      exact hsib j hij hjlen hjne
    · by_cases hj : j = pos
      · subst hj
        have hjpos : 0 < j := childOf_pos hij
        have hieq : i = (j - 1) / 2 := childOf_parent_uniq hij
        rw [hget_set_self l j _ hlen, hget_set_ne l j i _ (Ne.symm hi)]
        have := h2 c hc_child hc_len hjpos
        rw [← hieq] at this
        exact this
      · rw [hget_set_ne l pos i _ (fun hh => hi hh.symm),
          hget_set_ne l pos j _ (fun hh => hj hh.symm)]
        exact h1 i j hij hjlen hi hj
  · intro j hij hjlen _
    rw [List.length_set] at hjlen
    have hparent : (c - 1) / 2 = pos := (childOf_parent_uniq hc_child).symm
    have hcj : c < j := childOf_lt hij
    have hj_ne_pos : j ≠ pos := Nat.ne_of_gt (lt_trans hpc hcj)
    have hj_ne_c : j ≠ c := Nat.ne_of_gt hcj
    rw [hparent, hget_set_self l pos _ hlen,
      hget_set_ne l pos j _ (fun hh => hj_ne_pos hh.symm)]
    exact h1 c j hij hjlen hpc_ne hj_ne_pos

/-- Specification of the `_siftup` walk: it keeps the length, ends at a
position past the last parent (a leaf), and carries the hole invariants
down. -/
theorem siftupGo_spec :
    ∀ (fuel : Nat) (l : List Entry) (pos : Nat),
      l.length - pos ≤ fuel → pos < l.length → hole1 l pos → hole2 l pos →
      (siftupGo fuel l pos).1.length = l.length ∧
      (siftupGo fuel l pos).2 < l.length ∧
      hole1 (siftupGo fuel l pos).1 (siftupGo fuel l pos).2 ∧
      hole2 (siftupGo fuel l pos).1 (siftupGo fuel l pos).2 ∧
      (siftupGo fuel l pos).1.length ≤ 2 * (siftupGo fuel l pos).2 + 1 := by
  intro fuel
  induction fuel with
  | zero =>
      intro l pos hf hlen h1 h2
      exfalso
      omega
  | succ fuel ih =>
      intro l pos hf hlen h1 h2
      by_cases hch : 2 * pos + 1 < l.length
      · by_cases hcond : 2 * pos + 2 < l.length ∧
            (!entryLt (hget l (2 * pos + 1)) (hget l (2 * pos + 2))) = true
        · -- right child chosen
          have hred : siftupGo (fuel + 1) l pos
              = siftupGo fuel (l.set pos (hget l (2 * pos + 2))) (2 * pos + 2) := by
            simp only [siftupGo, if_pos hch, if_pos hcond]
          have hsib : ∀ j, childOf pos j → j < l.length → j ≠ 2 * pos + 2 →
              (hget l (2 * pos + 2)).priority ≤ (hget l j).priority := by
            intro j hij hjlen hjne
            have hjl : j = 2 * pos + 1 := by rcases hij with h | h <;> omega
            subst hjl
            have hfalse : entryLt (hget l (2 * pos + 1)) (hget l (2 * pos + 2)) = false := by
              have hc2 := hcond.2
              simpa using hc2
            exact entryLt_false hfalse
          obtain ⟨hstep1, hstep2⟩ := siftup_step_inv l pos (2 * pos + 2) hlen
            (Or.inr rfl) hcond.1 hsib h1 h2
          have hrec := ih (l.set pos (hget l (2 * pos + 2))) (2 * pos + 2)
            (by rw [List.length_set]; omega)
            (by rw [List.length_set]; exact hcond.1)
            hstep1 hstep2
          rw [hred]
          rw [List.length_set] at hrec
          exact hrec
        · -- left child chosen
          have hred : siftupGo (fuel + 1) l pos
              = siftupGo fuel (l.set pos (hget l (2 * pos + 1))) (2 * pos + 1) := by
            simp only [siftupGo, if_pos hch, if_neg hcond]
          have hsib : ∀ j, childOf pos j → j < l.length → j ≠ 2 * pos + 1 →
              (hget l (2 * pos + 1)).priority ≤ (hget l j).priority := by
            intro j hij hjlen hjne
            have hjl : j = 2 * pos + 2 := by rcases hij with h | h <;> omega
            subst hjl
            have htrue : entryLt (hget l (2 * pos + 1)) (hget l (2 * pos + 2)) = true := by
              cases hb : entryLt (hget l (2 * pos + 1)) (hget l (2 * pos + 2)) with
              | true => rfl
              | false => exact absurd ⟨hjlen, by simp [hb]⟩ hcond
            exact le_of_lt (entryLt_true htrue)
          obtain ⟨hstep1, hstep2⟩ := siftup_step_inv l pos (2 * pos + 1) hlen
            (Or.inl rfl) hch hsib h1 h2
          have hrec := ih (l.set pos (hget l (2 * pos + 1))) (2 * pos + 1)
            (by rw [List.length_set]; omega)
            (by rw [List.length_set]; exact hch)
            hstep1 hstep2
          rw [hred]
          rw [List.length_set] at hrec
          exact hrec
      · have hred : siftupGo (fuel + 1) l pos = (l, pos) := by
          simp [siftupGo, hch]
        rw [hred]
        refine ⟨rfl, hlen, h1, h2, ?_⟩
        simp only
        omega

/-- `_siftup` from the root restores the heap property when the heap is
valid away from position 0. -/
theorem siftup_heapInv (l : List Entry) (hlen : 0 < l.length) (h1 : hole1 l 0) :
    heapInv (siftup l 0) := by
  unfold siftup
  rcases hgo : siftupGo l.length l 0 with ⟨l2, p2⟩
  obtain ⟨hl2len, hp2, h1', h2', hleaf⟩ := siftupGo_spec l.length l 0
    (by omega) hlen h1 (fun j _ hjl h0 => absurd h0 (by omega))
  rw [hgo] at hl2len hp2 h1' h2' hleaf
  simp only at hl2len hp2 h1' h2' hleaf
  simp only [hgo]
  apply siftdownGo_heapInv (hget l 0) p2 l2 p2 le_rfl (by omega)
  exact ⟨h1', h2', fun j hij hjlen => absurd hjlen (by
    have := childOf_lt hij
    rcases hij with h | h <;> omega)⟩

/-- `heappop` on a valid heap returns an entry of minimal priority and
leaves a valid heap. -/
theorem heappop_spec (l : List Entry) (hinv : heapInv l) :
    ∀ e l2, heappop l = some (e, l2) →
      (∀ y ∈ l, e.priority ≤ y.priority) ∧ heapInv l2 := by
  intro e l2 hpop
  match l, hinv, hpop with
  | [], _, hpop => exact absurd hpop (by simp [heappop])
  | [x], _, hpop =>
      simp only [heappop, Option.some_inj, Prod.mk.injEq] at hpop
      obtain ⟨rfl, rfl⟩ := hpop
      constructor
      · intro y hy
        rcases List.mem_singleton.mp hy with rfl
        exact le_refl _
      · intro i j hij hjlen
        exact absurd hjlen (by simp)
  | a :: b :: t, hinv, hpop =>
      simp only [heappop, Option.some_inj, Prod.mk.injEq] at hpop
      obtain ⟨he, hl2⟩ := hpop
      subst he
      subst hl2
      have hlen2 : 2 ≤ (a :: b :: t).length := by simp
      have hrest_len : (a :: b :: t).dropLast.length = (a :: b :: t).length - 1 := by
        simp [List.length_dropLast]
      have he0 : hget (a :: b :: t).dropLast 0 = hget (a :: b :: t) 0 :=
        hget_dropLast (a :: b :: t) 0 (by omega)
      constructor
      · intro y hy
        rw [he0]
        obtain ⟨i, hi, rfl⟩ := List.mem_iff_getElem.mp hy
        have hgety : hget (a :: b :: t) i = (a :: b :: t)[i] := by
          simp [hget, List.getD_eq_getElem?_getD, List.getElem?_eq_getElem hi]
        rw [← hgety]
        exact heapInv_root_min (a :: b :: t) hinv i hi
      · apply siftup_heapInv
        · rw [List.length_set]
          omega
        · intro i j hij hjlen hine hjne
          rw [List.length_set, hrest_len] at hjlen
          have hilt : i < (a :: b :: t).length - 1 := lt_trans (childOf_lt hij) hjlen
          rw [hget_set_ne _ _ _ _ (fun hh => hine hh.symm),
            hget_set_ne _ _ _ _ (fun hh => hjne hh.symm),
            hget_dropLast (a :: b :: t) i (by omega),
            hget_dropLast (a :: b :: t) j (by omega)]
          exact hinv i j hij (by omega)

/-- **C9, counterexample.**  Four equal-priority tasks enqueued in id
order 0, 1, 2, 3 are dequeued in the order 0, 2, 1, 3: the heap breaks
the tie by its internal layout, not by FIFO arrival (task 2 overtakes
task 1). -/
theorem claim_C9_counterexample :
    drainIds 4 (pushAll [] [⟨0, 0⟩, ⟨0, 1⟩, ⟨0, 2⟩, ⟨0, 3⟩]) = [0, 2, 1, 3] ∧
    ([0, 2, 1, 3] : List Nat) ≠ [0, 1, 2, 3] := by
  exact ⟨rfl, by decide⟩

/-- **C9** (amended).  The queue's heap discipline guarantees that a
worker always dequeues a task of the lowest pending priority value: the
empty heap is valid, `heappush` preserves validity, and on a valid heap
`heappop` returns an entry whose priority is ≤ that of every pending
entry and leaves a valid heap.  Ties between equal priority values are
*not* broken FIFO — the dequeue order among them is whatever the heap
layout produces (see the counterexample). -/
theorem claim_C9 :
    heapInv [] ∧
    (∀ (l : List Entry) (x : Entry), heapInv l → heapInv (heappush l x)) ∧
    (∀ (l l2 : List Entry) (e : Entry), heapInv l → heappop l = some (e, l2) →
      (∀ y ∈ l, e.priority ≤ y.priority) ∧ heapInv l2) := by
  refine ⟨?_, ?_, ?_⟩
  · intro i j hij hjlen
    exact absurd hjlen (by simp)
  · intro l x hinv
    exact heappush_heapInv l x hinv
  · intro l l2 e hinv hpop
    exact heappop_spec l hinv e l2 hpop

/-- **C9, witness.**  A concrete two-entry heap: the pop returns the
priority-1 entry, it is ≤ the priority-2 entry, and the remaining heap
is valid. -/
theorem claim_C9_witness :
    heappop [Entry.mk 1 0, Entry.mk 2 1] = some (⟨1, 0⟩, [⟨2, 1⟩]) ∧
    (Entry.mk 1 0).priority ≤ (Entry.mk 2 1).priority ∧
    heapInv [⟨2, 1⟩] := by
  have hinv : heapInv [⟨1, 0⟩, ⟨2, 1⟩] := by
    intro i j hij hjlen
    simp only [List.length_cons, List.length_nil] at hjlen
    rcases hij with h | h
    · have hi : i = 0 := by omega
      have hj : j = 1 := by omega
      subst hi
      subst hj
      show (hget [⟨1, 0⟩, ⟨2, 1⟩] 0).priority ≤ (hget [⟨1, 0⟩, ⟨2, 1⟩] 1).priority
      norm_num [hget]
    · exact absurd hjlen (by omega)
  have h := claim_C9.2.2 [⟨1, 0⟩, ⟨2, 1⟩] [⟨2, 1⟩] ⟨1, 0⟩ hinv rfl
  exact ⟨rfl, h.1 ⟨2, 1⟩ (by simp), h.2⟩

end GPTOS
